import Mathlib

/-!
Verification of the waypoint-constrained monotone-path planner of the
`robot-fruit-hunt` bot (`src/mybot.js`).

The JavaScript source is shallowly embedded: grid points are pairs of
integers, JS arrays become `List`, JS objects used as string-keyed maps
become association lists over `Point` (the JS code coerces a point array
`[c, r]` to the string key `"c,r"`; this coercion is injective on integer
pairs, so points themselves serve as keys), and JS runtime errors
(`TypeError`) are modelled with `Option`/`Except`.  The mutually
recursive path extraction, which does not terminate on cyclic graphs,
takes an explicit fuel parameter; `none` models a computation that
crashes or fails to return.
-/

/-- A grid point `(column, row)`, as the JS arrays `[c, r]`. -/
abbrev Point := Int × Int

/-- A bounding box as returned by `box_coordinates_from_endpoints`
(`src/mybot.js` lines 126-150): an object with `left` and `right`
corner points. -/
structure Box where
  left : Point
  right : Point
deriving Repr, DecidableEq

/-- `coordinate_functions.manhattan_metric` (`src/mybot.js` line 107):
`Math.abs(from[0] - to[0]) + Math.abs(from[1] - to[1])`. -/
def manhattan_metric (from_ to_ : Point) : Nat :=
  (from_.1 - to_.1).natAbs + (from_.2 - to_.2).natAbs

/-- `coordinate_functions.box_coordinates_from_endpoints`
(`src/mybot.js` lines 126-150), translated branch for branch.  The
degenerate branch (`orientation === 0`) covers horizontal and vertical
lines and, per the source comment, "a single point". -/
def box_coordinates_from_endpoints (start e : Point) : Box :=
  let col_delta := e.1 - start.1
  let row_delta := e.2 - start.2
  let orientation := col_delta * row_delta
  if orientation = 0 then
    if col_delta = 0 then
      if row_delta > 0 then ⟨start, e⟩ else ⟨e, start⟩
    else
      if col_delta > 0 then ⟨start, e⟩ else ⟨e, start⟩
  else if orientation > 0 then
    if col_delta > 0 then ⟨start, e⟩ else ⟨e, start⟩
  else
    let shifted_start : Point := (start.1 + col_delta, start.2)
    let shifted_end : Point := (e.1 - col_delta, e.2)
    if col_delta < 0 then ⟨shifted_start, shifted_end⟩ else ⟨shifted_end, shifted_start⟩

/-- `coordinate_functions.nodes_in_box` (`src/mybot.js` lines 161-176)
with the extra filter passed explicitly.  The JS column check
`node[0] >= left[0] && node[0] <= right[0]` and row check
`node[1] >= left[1] && node[1] <= right[1]` become the nested
conditionals below. -/
def nodes_in_box (box_coords : Box) (nodes : List Point) (extra_filter : Point → Bool) :
    List Point :=
  nodes.filter fun node =>
    if box_coords.left.1 ≤ node.1 ∧ node.1 ≤ box_coords.right.1 then
      if box_coords.left.2 ≤ node.2 ∧ node.2 ≤ box_coords.right.2 then
        extra_filter node
      else false
    else false

/-- `nodes_in_box` with the defaulted extra filter: when no filtering
function is passed in, the JS source substitutes
`function (node) { return true; }` (`src/mybot.js` line 163). -/
def nodes_in_box_default (box_coords : Box) (nodes : List Point) : List Point :=
  nodes_in_box box_coords nodes fun _ => true

/-- Rectangle membership, the proposition tested by the filter inside
`nodes_in_box`. -/
def in_box (b : Box) (p : Point) : Prop :=
  b.left.1 ≤ p.1 ∧ p.1 ≤ b.right.1 ∧ b.left.2 ≤ p.2 ∧ p.2 ≤ b.right.2

instance (b : Box) (p : Point) : Decidable (in_box b p) :=
  inferInstanceAs (Decidable
    (b.left.1 ≤ p.1 ∧ p.1 ≤ b.right.1 ∧ b.left.2 ≤ p.2 ∧ p.2 ≤ b.right.2))

/-- A reachability graph: the JS object mapping a point (coerced to the
string `"c,r"`) to the array of its admissible successors.  Keys are
unique; assignment overwrites in place, preserving insertion order,
exactly as JS property assignment does. -/
abbrev Graph := List (Point × List Point)

/-- JS property assignment `g[k] = v`: overwrite the entry for `k` if it
exists (keeping its position, as JS preserves insertion order), else
append a new entry. -/
def setKey (g : Graph) (k : Point) (v : List Point) : Graph :=
  match g with
  | [] => [(k, v)]
  | (k', v') :: rest => if k' = k then (k, v) :: rest else (k', v') :: setKey rest k v

/-- JS property read `g[k]`: `none` models `undefined`.  Keys produced
by `setKey` are unique, so returning the first matching entry is the JS
object read. -/
def lookupG (g : Graph) (k : Point) : Option (List Point) :=
  match g with
  | [] => none
  | kv :: rest => if kv.1 = k then some kv.2 else lookupG rest k

/-- `path_construction.merge` (`src/mybot.js` lines 191-195):
destructively update `a` with every key/value pair of `b`. -/
def merge (a b : Graph) : Graph :=
  b.foldl (fun acc kv => setKey acc kv.1 kv.2) a

/-- The closure passed to `nodes_in_box` inside `refine`
(`src/mybot.js` line 321): `n[0] !== node[0] || n[1] !== node[1]`. -/
def neFilter (node : Point) : Point → Bool :=
  fun n => (n.1 != node.1) || (n.2 != node.2)

/-- The body of the `forEach` loop of `path_construction.refine`
(`src/mybot.js` lines 319-327), hoisted to a named function so the
fold can be reasoned about. -/
def refine_step (e : Point) (nodes : List Point) (acc : List Point × Graph)
    (node : Point) : List Point × Graph :=
  let box_coords := box_coordinates_from_endpoints node e
  let refined_nodes := nodes_in_box box_coords nodes (neFilter node)
  if refined_nodes.isEmpty then acc
  else (acc.1 ++ refined_nodes, setKey acc.2 node refined_nodes)

/-- `path_construction.refine` (`src/mybot.js` lines 317-329).  The
first component is the `reachable_in_two_steps` set (a JS object used
as a set of points; we keep the inserted points in a list, membership
being what matters), the second the `refined_graph` accumulator. -/
def refine (e : Point) (nodes : List Point) : List Point × Graph :=
  nodes.foldl (refine_step e nodes) ([], [])

/-- `path_construction.single_refinement_step` (`src/mybot.js` lines
299-310) minus the memoization cache: the cache is keyed by the exact
arguments and stores the value this function computes from them, so it
is semantically transparent within one game (and the objects it stores
are never mutated afterwards).  Returns `(filtered_nodes, graph)`. -/
def single_refinement_step (e : Point) (reachable_nodes : List Point) :
    List Point × Graph :=
  let refinement := refine e reachable_nodes
  let filtered_nodes := reachable_nodes.filter fun node => !(refinement.1.contains node)
  (filtered_nodes, refinement.2)

/-- The in-place `nodes.push(end)` guarded by the membership test at
`src/mybot.js` lines 256-259: the caller's array after the call to
`construct_restricted_paths` is exactly `pushEnd e nodes`. -/
def pushEnd (e : Point) (nodes : List Point) : List Point :=
  if nodes.any fun node => node.1 == e.1 && node.2 == e.2 then nodes else nodes ++ [e]

/-! ### Basic facts about the geometry functions -/

/-- In every branch, the box returned by `box_coordinates_from_endpoints`
has the componentwise minimum of the two endpoints as its left corner and
the componentwise maximum as its right corner. -/
lemma box_minmax (a b : Point) :
    (box_coordinates_from_endpoints a b).left.1 = min a.1 b.1 ∧
    (box_coordinates_from_endpoints a b).left.2 = min a.2 b.2 ∧
    (box_coordinates_from_endpoints a b).right.1 = max a.1 b.1 ∧
    (box_coordinates_from_endpoints a b).right.2 = max a.2 b.2 := by
  dsimp only [box_coordinates_from_endpoints]
  rcases lt_trichotomy (b.1 - a.1) 0 with hc | hc | hc <;>
    rcases lt_trichotomy (b.2 - a.2) 0 with hr | hr | hr
  · have h := mul_pos_of_neg_of_neg hc hr; split_ifs <;> dsimp only <;> omega
  · have h := mul_eq_zero_of_right (b.1 - a.1) hr; split_ifs <;> dsimp only <;> omega
  · have h := mul_neg_of_neg_of_pos hc hr; split_ifs <;> dsimp only <;> omega
  · have h := mul_eq_zero_of_left hc (b.2 - a.2); split_ifs <;> dsimp only <;> omega
  · have h := mul_eq_zero_of_left hc (b.2 - a.2); split_ifs <;> dsimp only <;> omega
  · have h := mul_eq_zero_of_left hc (b.2 - a.2); split_ifs <;> dsimp only <;> omega
  · have h := mul_neg_of_pos_of_neg hc hr; split_ifs <;> dsimp only <;> omega
  · have h := mul_eq_zero_of_right (b.1 - a.1) hr; split_ifs <;> dsimp only <;> omega
  · have h := mul_pos hc hr; split_ifs <;> dsimp only <;> omega

/-- Membership in the result of `nodes_in_box`, unfolded to the bound
checks of the source. -/
lemma mem_nodes_in_box {b : Box} {nodes : List Point} {f : Point → Bool} {x : Point} :
    x ∈ nodes_in_box b nodes f ↔
      x ∈ nodes ∧ b.left.1 ≤ x.1 ∧ x.1 ≤ b.right.1 ∧
        b.left.2 ≤ x.2 ∧ x.2 ≤ b.right.2 ∧ f x = true := by
  unfold nodes_in_box
  rw [List.mem_filter]
  constructor
  · rintro ⟨hm, hp⟩
    split_ifs at hp with h1 h2
    · exact ⟨hm, h1.1, h1.2, h2.1, h2.2, hp⟩
  · rintro ⟨hm, h1, h2, h3, h4, hf⟩
    exact ⟨hm, by rw [if_pos ⟨h1, h2⟩, if_pos ⟨h3, h4⟩]; exact hf⟩

lemma nodes_in_box_sublist {b : Box} {nodes : List Point} {f : Point → Bool} {x : Point}
    (h : x ∈ nodes_in_box b nodes f) : x ∈ nodes :=
  (mem_nodes_in_box.mp h).1

lemma neFilter_eq_true {node n : Point} : neFilter node n = true ↔ n ≠ node := by
  simp only [neFilter, Bool.or_eq_true, bne_iff_ne, ne_eq, Prod.ext_iff]
  tauto

lemma neFilter_self (node : Point) : neFilter node node = false := by
  simp [neFilter]

/-- Both endpoints lie inside their own bounding box. -/
lemma in_box_endpoints (a b : Point) :
    in_box (box_coordinates_from_endpoints a b) a ∧
      in_box (box_coordinates_from_endpoints a b) b := by
  obtain ⟨h1, h2, h3, h4⟩ := box_minmax a b
  unfold in_box
  rw [h1, h2, h3, h4]
  omega

/-- `in_box` for a degenerate box between equal endpoints forces
equality of coordinates. -/
lemma in_box_same {e x : Point} (h : in_box (box_coordinates_from_endpoints e e) x) :
    x = e := by
  obtain ⟨h1, h2, h3, h4⟩ := box_minmax e e
  obtain ⟨g1, g2, g3, g4⟩ := h
  rw [h1] at g1; rw [h3] at g2; rw [h2] at g3; rw [h4] at g4
  exact Prod.ext (by omega) (by omega)

/-! ### Facts about `pushEnd`, `setKey`, `lookupG`, `merge` -/

lemma pushEnd_eq (e : Point) (nodes : List Point) :
    pushEnd e nodes = if e ∈ nodes then nodes else nodes ++ [e] := by
  unfold pushEnd
  by_cases h : e ∈ nodes
  · rw [if_pos h, if_pos]
    exact List.any_eq_true.mpr ⟨e, h, by simp⟩
  · rw [if_neg h, if_neg]
    intro hc
    obtain ⟨n, hn, hb⟩ := List.any_eq_true.mp hc
    simp only [Bool.and_eq_true, beq_iff_eq] at hb
    exact h (Prod.ext hb.1 hb.2 ▸ hn)

lemma mem_pushEnd_self (e : Point) (nodes : List Point) : e ∈ pushEnd e nodes := by
  rw [pushEnd_eq]
  split_ifs with h
  · exact h
  · simp

lemma mem_pushEnd_of_mem {x e : Point} {nodes : List Point} (h : x ∈ nodes) :
    x ∈ pushEnd e nodes := by
  rw [pushEnd_eq]
  split_ifs <;> simp [h]

lemma pushEnd_of_mem {e : Point} {nodes : List Point} (h : e ∈ nodes) :
    pushEnd e nodes = nodes := by
  rw [pushEnd_eq, if_pos h]

lemma lookup_setKey (g : Graph) (k : Point) (v : List Point) (k' : Point) :
    lookupG (setKey g k v) k' = if k' = k then some v else lookupG g k' := by
  induction g with
  | nil =>
    simp only [setKey, lookupG]
    by_cases h : k' = k
    · rw [if_pos (h.symm : (k, v).1 = k'), if_pos h]
    · rw [if_neg (fun hc : (k, v).1 = k' => h hc.symm), if_neg h]
  | cons kv rest ih =>
    show lookupG (if kv.1 = k then (k, v) :: rest else kv :: setKey rest k v) k' = _
    by_cases h : kv.1 = k
    · rw [if_pos h]
      show (if (k, v).1 = k' then some v else lookupG rest k') = _
      by_cases h' : k' = k
      · rw [if_pos (h'.symm : (k, v).1 = k'), if_pos h']
      · rw [if_neg (fun hc : (k, v).1 = k' => h' hc.symm), if_neg h']
        show _ = if kv.1 = k' then some kv.2 else lookupG rest k'
        rw [if_neg (fun hc : kv.1 = k' => h' (hc.symm.trans h))]
    · rw [if_neg h]
      show (if kv.1 = k' then some kv.2 else lookupG (setKey rest k v) k') = _
      by_cases h' : kv.1 = k'
      · rw [if_pos h', if_neg (fun hc : k' = k => h (h' ▸ hc)),
          show lookupG (kv :: rest) k' = some kv.2 from by
            show (if kv.1 = k' then some kv.2 else lookupG rest k') = _
            rw [if_pos h']]
      · rw [if_neg h', ih]
        by_cases h2 : k' = k
        · rw [if_pos h2, if_pos h2]
        · rw [if_neg h2, if_neg h2]
          show _ = if kv.1 = k' then some kv.2 else lookupG rest k'
          rw [if_neg h']

lemma mem_setKey {g : Graph} {k : Point} {v : List Point} {kv : Point × List Point}
    (h : kv ∈ setKey g k v) : kv ∈ g ∨ kv = (k, v) := by
  induction g with
  | nil => simpa [setKey] using h
  | cons hd tl ih =>
    unfold setKey at h
    split_ifs at h with he
    · rcases List.mem_cons.mp h with h | h
      · exact Or.inr h
      · exact Or.inl (List.mem_cons_of_mem _ h)
    · rcases List.mem_cons.mp h with h | h
      · exact Or.inl (h ▸ List.mem_cons_self _ _)
      · rcases ih h with h | h
        · exact Or.inl (List.mem_cons_of_mem _ h)
        · exact Or.inr h

lemma lookup_mem {g : Graph} {k : Point} {v : List Point}
    (h : lookupG g k = some v) : (k, v) ∈ g := by
  induction g with
  | nil => simp [lookupG] at h
  | cons hd tl ih =>
    unfold lookupG at h
    split_ifs at h with he
    · have hv := Option.some.inj h
      have heq : hd = (k, v) := Prod.ext he hv
      exact heq ▸ List.mem_cons_self _ _
    · exact List.mem_cons_of_mem _ (ih h)

/-- `isKey g k` holds when key `k` is present in graph `g`. -/
def isKey (g : Graph) (k : Point) : Prop := lookupG g k ≠ none

lemma isKey_setKey_self (g : Graph) (k : Point) (v : List Point) :
    isKey (setKey g k v) k := by
  unfold isKey
  rw [lookup_setKey, if_pos rfl]
  simp

lemma isKey_setKey_of {g : Graph} {k' : Point} (k : Point) (v : List Point)
    (h : isKey g k') : isKey (setKey g k v) k' := by
  unfold isKey at *
  rw [lookup_setKey]
  split_ifs <;> simp [h]

lemma mem_merge {a b : Graph} {kv : Point × List Point} (h : kv ∈ merge a b) :
    kv ∈ a ∨ kv ∈ b := by
  induction b generalizing a with
  | nil => exact Or.inl h
  | cons hd tl ih =>
    unfold merge at h ih
    rw [List.foldl_cons] at h
    rcases ih h with h | h
    · rcases mem_setKey h with h | h
      · exact Or.inl h
      · exact Or.inr (h ▸ List.mem_cons_self _ _)
    · exact Or.inr (List.mem_cons_of_mem _ h)

lemma isKey_merge_left {a : Graph} (b : Graph) {k : Point} (h : isKey a k) :
    isKey (merge a b) k := by
  induction b generalizing a with
  | nil => exact h
  | cons hd tl ih =>
    unfold merge at ih ⊢
    rw [List.foldl_cons]
    exact ih (isKey_setKey_of _ _ h)

lemma isKey_merge_right {b : Graph} (a : Graph) {k : Point}
    (h : ∃ v, (k, v) ∈ b) : isKey (merge a b) k := by
  induction b generalizing a with
  | nil => simp at h
  | cons hd tl ih =>
    obtain ⟨v, hv⟩ := h
    unfold merge at ih ⊢
    rw [List.foldl_cons]
    rcases List.mem_cons.mp hv with h | h
    · have hk : k = hd.1 := congrArg Prod.fst h
      have hkey : isKey (setKey a hd.1 hd.2) k := by
        rw [hk]; exact isKey_setKey_self _ _ _
      exact isKey_merge_left tl hkey
    · exact ih _ ⟨v, h⟩

lemma mem_foldl_merge {gs : List Graph} {g0 : Graph} {kv : Point × List Point}
    (h : kv ∈ gs.foldl merge g0) : kv ∈ g0 ∨ ∃ g ∈ gs, kv ∈ g := by
  induction gs generalizing g0 with
  | nil => exact Or.inl h
  | cons hd tl ih =>
    rw [List.foldl_cons] at h
    rcases ih h with h | ⟨g, hg, hkv⟩
    · rcases mem_merge h with h | h
      · exact Or.inl h
      · exact Or.inr ⟨hd, List.mem_cons_self _ _, h⟩
    · exact Or.inr ⟨g, List.mem_cons_of_mem _ hg, hkv⟩

lemma isKey_foldl_merge_left {gs : List Graph} {g0 : Graph} {k : Point}
    (h : isKey g0 k) : isKey (gs.foldl merge g0) k := by
  induction gs generalizing g0 with
  | nil => exact h
  | cons hd tl ih => exact ih (isKey_merge_left hd h)

lemma isKey_foldl_merge_of_mem {gs : List Graph} {g0 g : Graph} {k : Point}
    (hg : g ∈ gs) (h : isKey g k) : isKey (gs.foldl merge g0) k := by
  induction gs generalizing g0 with
  | nil => simp at hg
  | cons hd tl ih =>
    rw [List.foldl_cons]
    rcases List.mem_cons.mp hg with rfl | hg
    · apply isKey_foldl_merge_left
      obtain ⟨v, hv⟩ : ∃ v, lookupG g k = some v := by
        cases hl : lookupG g k with
        | none => exact absurd hl h
        | some v => exact ⟨v, rfl⟩
      exact isKey_merge_right _ ⟨v, lookup_mem hv⟩
    · exact ih hg

/-! ### Entries of the refined graph -/

/-- Every entry of the `refined_graph` accumulator built by `refine`
is of the shape recorded by the loop body: the key is one of the
processed nodes and the value is the non-empty `nodes_in_box` result
for that key. -/
def RefEntry (e : Point) (S : List Point) (kv : Point × List Point) : Prop :=
  kv.1 ∈ S ∧
    kv.2 = nodes_in_box (box_coordinates_from_endpoints kv.1 e) S (neFilter kv.1) ∧
    kv.2 ≠ []

lemma refine_fold_entries (e : Point) (S : List Point) :
    ∀ (l : List Point) (acc : List Point × Graph),
      (∀ kv ∈ acc.2, RefEntry e S kv) → (∀ n ∈ l, n ∈ S) →
      ∀ kv ∈ (l.foldl (refine_step e S) acc).2, RefEntry e S kv := by
  intro l
  induction l with
  | nil => intro acc hacc _ kv hkv; exact hacc kv hkv
  | cons nd tl ih =>
    intro acc hacc hsub kv hkv
    rw [List.foldl_cons] at hkv
    refine ih (refine_step e S acc nd) ?_ (fun n hn => hsub n (List.mem_cons_of_mem _ hn)) kv hkv
    intro kv' hkv'
    dsimp only [refine_step] at hkv'
    split_ifs at hkv' with hemp
    · exact hacc kv' hkv'
    · rcases mem_setKey hkv' with h | h
      · exact hacc kv' h
      · refine h ▸ ⟨hsub nd (List.mem_cons_self _ _), rfl, ?_⟩
        intro hc
        apply hemp
        rw [List.isEmpty_iff]
        exact hc

lemma refine_entries (e : Point) (S : List Point) :
    ∀ kv ∈ (refine e S).2, RefEntry e S kv := by
  intro kv hkv
  exact refine_fold_entries e S S ([], []) (by intro kv h; simp at h) (fun n hn => hn) kv hkv

/-- A refined-graph key is never (coordinate-)equal to the destination:
the destination's own box is degenerate and its `nodes_in_box` result is
empty, so no entry is recorded for it. -/
lemma refEntry_ne_end {e : Point} {S : List Point} {kv : Point × List Point}
    (h : RefEntry e S kv) : kv.1 ≠ e := by
  obtain ⟨_, hval, hne⟩ := h
  intro hc
  apply hne
  rw [hc] at hval
  rw [hval]
  rcases hl : nodes_in_box (box_coordinates_from_endpoints e e) S (neFilter e) with _ | ⟨x, rest⟩
  · rfl
  · exfalso
    have hx : x ∈ nodes_in_box (box_coordinates_from_endpoints e e) S (neFilter e) := by
      rw [hl]; exact List.mem_cons_self _ _
    obtain ⟨_, g1, g2, g3, g4, gf⟩ := mem_nodes_in_box.mp hx
    have hxe : x = e := in_box_same ⟨g1, g2, g3, g4⟩
    rw [hxe] at gf
    rw [neFilter_self] at gf
    cases gf

/-- The destination always belongs to a refined-graph value (it sits in
every other node's box and passes the inequality filter). -/
lemma refEntry_end_mem {e : Point} {S : List Point} {kv : Point × List Point}
    (he : e ∈ S) (h : RefEntry e S kv) : e ∈ kv.2 := by
  rw [h.2.1]
  apply mem_nodes_in_box.mpr
  obtain ⟨h1, h2, h3, h4⟩ := box_minmax kv.1 e
  refine ⟨he, ?_, ?_, ?_, ?_, neFilter_eq_true.mpr (fun hc => refEntry_ne_end h hc.symm)⟩ <;> omega

/-- The value of a refined-graph entry is strictly shorter than the node
list it was filtered from: the key itself is filtered out. -/
lemma refEntry_length {e : Point} {S : List Point} {kv : Point × List Point}
    (h : RefEntry e S kv) : kv.2.length < S.length := by
  obtain ⟨hk, hval, _⟩ := h
  rw [hval]
  unfold nodes_in_box
  apply List.length_filter_lt_length_iff_exists.mpr
  refine ⟨kv.1, hk, ?_⟩
  split_ifs <;> simp [neFilter_self]

/-- Every node of `S` other than (a node with the coordinates of) the
destination becomes a key of the refined graph. -/
lemma refine_fold_isKey (e : Point) (S : List Point) (he : e ∈ S) :
    ∀ (l : List Point) (acc : List Point × Graph) (n : Point),
      (isKey acc.2 n ∨ (n ∈ l ∧ n ≠ e)) → isKey ((l.foldl (refine_step e S) acc).2) n := by
  intro l
  induction l with
  | nil =>
    intro acc n h
    rcases h with h | ⟨h, _⟩
    · exact h
    · simp at h
  | cons nd tl ih =>
    intro acc n h
    rw [List.foldl_cons]
    apply ih
    rcases h with h | ⟨hmem, hne⟩
    · left
      dsimp only [refine_step]
      split_ifs with hemp
      · exact h
      · exact isKey_setKey_of _ _ h
    · rcases List.mem_cons.mp hmem with rfl | hmem
      · left
        dsimp only [refine_step]
        split_ifs with hemp
        · exfalso
          have hein : e ∈ nodes_in_box (box_coordinates_from_endpoints n e) S (neFilter n) := by
            apply mem_nodes_in_box.mpr
            obtain ⟨h1, h2, h3, h4⟩ := box_minmax n e
            exact ⟨he, by omega, by omega, by omega, by omega, neFilter_eq_true.mpr (Ne.symm hne)⟩
          rw [List.isEmpty_iff] at hemp
          rw [hemp] at hein
          simp at hein
        · exact isKey_setKey_self _ _ _
      · exact Or.inr ⟨hmem, hne⟩

lemma refine_isKey {e : Point} {S : List Point} (he : e ∈ S) {n : Point}
    (hn : n ∈ S) (hne : n ≠ e) : isKey (refine e S).2 n := by
  exact refine_fold_isKey e S he S ([], []) n (Or.inr ⟨hn, hne⟩)

/-- Node lists handed to recursive calls of `construct_restricted_paths`
are strictly shorter than the caller's (end-extended) node list, and
already contain the destination (so re-extending them is a no-op). -/
lemma refine_graph_decreases (e : Point) (nodes : List Point) :
    ∀ kv ∈ (refine e (pushEnd e nodes)).2,
      (pushEnd e kv.2).length < (pushEnd e nodes).length := by
  intro kv hkv
  have hre := refine_entries e (pushEnd e nodes) kv hkv
  have hmem : e ∈ kv.2 := refEntry_end_mem (mem_pushEnd_self e nodes) hre
  rw [pushEnd_of_mem hmem]
  exact refEntry_length hre

/-- `path_construction.construct_restricted_paths` (`src/mybot.js` lines
255-275).  The guarded push of `end` is `pushEnd`; `initial_graph[start]`
is first set to the (extended) node array (line 261) and, in the
recursive case, overwritten with the filtered nodes (line 270), so the
net entry is written directly.  `Object.keys(refined_graph)` enumerates
the accumulator entries in insertion order, and the child graphs are
merged into `initial_graph` in that order.  The JS recursion passes the
stringified key, which the child only ever uses as an object key again;
since point-to-string coercion is injective we keep the point itself. -/
def construct_restricted_paths (start e : Point) (nodes : List Point) : Graph :=
  let S := pushEnd e nodes
  let refined_data := single_refinement_step e S
  let refined_graph := refined_data.2
  if refined_graph.isEmpty then [(start, S)]
  else
    let initial_graph : Graph := [(start, refined_data.1)]
    (refined_graph.attach.map fun kv =>
        construct_restricted_paths kv.val.1 e kv.val.2).foldl merge initial_graph
termination_by (pushEnd e nodes).length
decreasing_by
  exact refine_graph_decreases e nodes kv.val kv.property

/-- `path_construction.extend_partial_path` (`src/mybot.js` lines
205-213).  The JS reads `partial_path[partial_path.length - 1]` (for an
empty array this is `undefined`, whose graph lookup is also
`undefined`); an absent successor list returns `[partial_path]`,
otherwise one extension per successor. -/
def extend_path (p : List Point) (path_graph : Graph) : List (List Point) :=
  match p.getLast? with
  | none => [p]
  | some last =>
    match lookupG path_graph last with
    | none => [p]
    | some possible_extensions => possible_extensions.map fun node => p ++ [node]

/-- The classification pass of `path_construction.extract_paths`
(`src/mybot.js` lines 227-236): each partial path is extended; if the
first extension has the original length the path is done, otherwise all
extensions are queued for re-extension.  The JS reads `extensions[0]`
unconditionally, so an empty extension list (a present but empty
successor array) is a `TypeError`, modelled by `none`. -/
def extract_classify (path_graph : Graph) :
    List (List Point) → Option (List (List Point) × List (List Point))
  | [] => some ([], [])
  | p :: ps =>
    match extend_path p path_graph with
    | [] => none
    | e0 :: rest =>
      match extract_classify path_graph ps with
      | none => none
      | some (done, need_extension) =>
        if e0.length = p.length then some (p :: done, need_extension)
        else some (done, (e0 :: rest) ++ need_extension)

/-- `path_construction.extract_paths` (`src/mybot.js` lines 223-243)
with explicit fuel for the recursion on the `need_extension` list; the
JS function recurses without bound on a cyclic graph, which the fuel
models by returning `none`. -/
def extract_paths (fuel : Nat) (partial_chains : List (List Point)) (path_graph : Graph) :
    Option (List (List Point)) :=
  match fuel with
  | 0 => none
  | fuel' + 1 =>
    match extract_classify path_graph partial_chains with
    | none => none
    | some (done, need_extension) =>
      if need_extension.isEmpty then some done
      else
        match extract_paths fuel' need_extension path_graph with
        | none => none
        | some rest => some (done ++ rest)

/-- `path_construction.possible_paths` (`src/mybot.js` lines 285-289). -/
def possible_paths (fuel : Nat) (start e : Point) (nodes : List Point) :
    Option (List (List Point)) :=
  extract_paths fuel [[start]] (construct_restricted_paths start e nodes)

/-! ### PathSelector: `Rare_Fruit_First.pick_best_path` -/

/-- Lookup in the `node_to_fruit_mapping` JS object (`Point` keys are
the coerced `"c,r"` strings, `Int` values the fruit types). -/
def lookupFruit (mapping : List (Point × Int)) (k : Point) : Option Int :=
  (mapping.find? fun kv => kv.1 == k).map (·.2)

/-- Read `fruit_count[fruit]` for an initialized fruit key. -/
def countOf (fruit_count : List (Int × Int)) (fruit : Int) : Int :=
  ((fruit_count.find? fun kv => kv.1 == fruit).map (·.2)).getD 0

/-- Increment `fruit_count[f]` when the key is present. -/
def bumpCount (fruit_count : List (Int × Int)) (f : Int) : List (Int × Int) :=
  fruit_count.map fun kv => if kv.1 = f then (kv.1, kv.2 + 1) else kv

/-- The `fruit_count` map built for one path at `src/mybot.js` lines
543-549: every stash fruit is initialized to `0`, then each node of the
path bumps the count of its mapped fruit.  A node absent from
`node_to_fruit_mapping` makes the JS write `NaN` under the key
`"undefined"`, and a mapped fruit missing from the stash list writes
`NaN` under an uninitialized key; neither key is ever read back by the
comparator (which only reads stash fruits), so the embedding tracks the
initialized keys only. -/
def path_fruit_count (fruits : List Int) (mapping : List (Point × Int))
    (path : List Point) : List (Int × Int) :=
  path.foldl
    (fun fruit_count node =>
      match lookupFruit mapping node with
      | some f => bumpCount fruit_count f
      | none => fruit_count)
    (fruits.map fun fruit => (fruit, 0))

/-- The comparator passed to `sort` at `src/mybot.js` lines 551-557: it
returns `-1` as soon as any per-fruit difference is `≤ 0`, else `1`. -/
def path_comparator (fruits : List Int)
    (p1 p2 : List Point × List (Int × Int)) : Int :=
  let scores := fruits.map fun fruit => countOf p2.2 fruit - countOf p1.2 fruit
  if scores.any fun order => decide (order ≤ 0) then -1 else 1

/-- `Rare_Fruit_First.pick_best_path` (`src/mybot.js` lines 539-559).
The source maps `paths` to `[path, fruit_count]` pairs and sorts that
fresh array in place — but never binds the sorted result, and `sort`
does not touch the `paths` argument.  Line 558 then returns `paths[0]`,
the first element of the untouched argument (`none` models the
`undefined` read from an empty array).  The dead sorted value is kept
here (any stand-in for the implementation-defined order of JS `sort`
under an inconsistent comparator would do, since it is unused). -/
def pick_best_path (fruits : List Int) (mapping : List (Point × Int))
    (paths : List (List Point)) : Option (List Point) :=
  let scored := paths.map fun path => (path, path_fruit_count fruits mapping path)
  let _sorted := scored.mergeSort fun p1 p2 => path_comparator fruits p1 p2 ≤ 0
  paths.head?

/-- The per-fruit counts of a path listed in stash (rarity) order; the
lexicographic comparison of these lists is the selection rule stated by
the specification for `PathSelector`. -/
def rarity_scores (fruits : List Int) (mapping : List (Point × Int))
    (path : List Point) : List Int :=
  fruits.map fun fruit => countOf (path_fruit_count fruits mapping path) fruit

/-- Unfolding equation for `construct_restricted_paths` with the
`attach` of the termination argument removed. -/
lemma construct_unfold (start e : Point) (nodes : List Point) :
    construct_restricted_paths start e nodes =
      (let S := pushEnd e nodes
       let refined_data := single_refinement_step e S
       if refined_data.2.isEmpty then [(start, S)]
       else
         (refined_data.2.map fun kv =>
             construct_restricted_paths kv.1 e kv.2).foldl merge
           [(start, refined_data.1)]) := by
  rw [construct_restricted_paths]
  dsimp only
  rw [show ∀ X : Graph,
      List.map (fun kv : {x // x ∈ X} => construct_restricted_paths kv.val.1 e kv.val.2)
          (List.attach X) =
        List.map (fun kv => construct_restricted_paths kv.1 e kv.2) X from
    fun X => List.attach_map_val X fun kv => construct_restricted_paths kv.1 e kv.2]

/-- The dominance graph of Scenario A, computed once and shared. -/
lemma scenario_A_graph :
    construct_restricted_paths (0, 0) (4, 4) [(2, 2)] =
      [((0, 0), [(2, 2)]), ((2, 2), [(4, 4)])] := by
  have hchild : construct_restricted_paths (2, 2) (4, 4) [(4, 4)] = [((2, 2), [(4, 4)])] := by
    rw [construct_unfold]; rfl
  rw [construct_unfold]
  show ([((2, 2), [(4, 4)])].map fun kv =>
      construct_restricted_paths kv.1 (4, 4) kv.2).foldl merge [((0, 0), [(2, 2)])] = _
  rw [List.map_cons, List.map_nil]
  show merge [((0, 0), [(2, 2)])] (construct_restricted_paths (2, 2) (4, 4) [(4, 4)]) = _
  rw [hchild]; rfl

/-! ### Claim theorems: geometry -/

/-- C5 (counterexample): called with two coincident points, the source's
`box_coordinates_from_endpoints` does not signal any error — its
degenerate branch (the source comment even names "a single point")
returns the box `{left: p, right: p}`.  Shown here at `p = (0, 0)`. -/
theorem C5_coincident_returns_box :
    box_coordinates_from_endpoints (0, 0) (0, 0) = ⟨(0, 0), (0, 0)⟩ := by decide

/-- C5 (amended): for every point `p`, `box_coordinates_from_endpoints p p`
returns the degenerate box with both corners equal to `p`, rather than
signaling an invalid-input error. -/
theorem C5_coincident_box_value (p : Point) :
    box_coordinates_from_endpoints p p = ⟨p, p⟩ := by
  dsimp only [box_coordinates_from_endpoints]
  rw [sub_self, sub_self]
  norm_num

/-- C9: for every pair of distinct points, the returned box is canonical
(`left.column ≤ right.column`, `left.row ≤ right.row`) and its corners
are the componentwise minimum and maximum of the endpoints, so that its
membership test carves out exactly the minimal axis-aligned rectangle
containing both points — including the anti-diagonal case with its
synthetic corners. -/
theorem C9_box_canonical_minimal (a b : Point) (_hab : a ≠ b) :
    (box_coordinates_from_endpoints a b).left.1 ≤ (box_coordinates_from_endpoints a b).right.1 ∧
    (box_coordinates_from_endpoints a b).left.2 ≤ (box_coordinates_from_endpoints a b).right.2 ∧
    (box_coordinates_from_endpoints a b).left.1 = min a.1 b.1 ∧
    (box_coordinates_from_endpoints a b).left.2 = min a.2 b.2 ∧
    (box_coordinates_from_endpoints a b).right.1 = max a.1 b.1 ∧
    (box_coordinates_from_endpoints a b).right.2 = max a.2 b.2 ∧
    ∀ x : Point, in_box (box_coordinates_from_endpoints a b) x ↔
      min a.1 b.1 ≤ x.1 ∧ x.1 ≤ max a.1 b.1 ∧ min a.2 b.2 ≤ x.2 ∧ x.2 ≤ max a.2 b.2 := by
  obtain ⟨h1, h2, h3, h4⟩ := box_minmax a b
  refine ⟨by omega, by omega, h1, h2, h3, h4, fun x => ?_⟩
  unfold in_box
  rw [h1, h2, h3, h4]

/-- C9 (witness): instantiated at the anti-diagonal pair `(0, 1)`,
`(1, 0)`, whose box corners are the synthetic points `(0, 0)` and
`(1, 1)`. -/
theorem C9_box_canonical_minimal_witness :
    (box_coordinates_from_endpoints (0, 1) (1, 0)).left.1 ≤
        (box_coordinates_from_endpoints (0, 1) (1, 0)).right.1 ∧
    (box_coordinates_from_endpoints (0, 1) (1, 0)).left.2 ≤
        (box_coordinates_from_endpoints (0, 1) (1, 0)).right.2 ∧
    (box_coordinates_from_endpoints (0, 1) (1, 0)).left.1 = min (0 : Int) 1 ∧
    (box_coordinates_from_endpoints (0, 1) (1, 0)).left.2 = min (1 : Int) 0 ∧
    (box_coordinates_from_endpoints (0, 1) (1, 0)).right.1 = max (0 : Int) 1 ∧
    (box_coordinates_from_endpoints (0, 1) (1, 0)).right.2 = max (1 : Int) 0 ∧
    ∀ x : Point, in_box (box_coordinates_from_endpoints (0, 1) (1, 0)) x ↔
      min (0 : Int) 1 ≤ x.1 ∧ x.1 ≤ max (0 : Int) 1 ∧
        min (1 : Int) 0 ≤ x.2 ∧ x.2 ≤ max (1 : Int) 0 :=
  C9_box_canonical_minimal (0, 1) (1, 0) (by decide)

/-- C8: over canonical boxes (the data model's `Box` has
`left.row ≤ right.row`), `nodes_in_box` keeps exactly the nodes whose
column lies in `[left.column, right.column]` and whose row lies in
`[min(left.row, right.row), max(left.row, right.row)]`, both boundaries
inclusive, and which pass the extra predicate; the defaulted predicate
accepts everything. -/
theorem C8_nodes_in_box_characterization (b : Box) (nodes : List Point)
    (f : Point → Bool) (hcanon : b.left.2 ≤ b.right.2) :
    (∀ x : Point, x ∈ nodes_in_box b nodes f ↔
      x ∈ nodes ∧ b.left.1 ≤ x.1 ∧ x.1 ≤ b.right.1 ∧
        min b.left.2 b.right.2 ≤ x.2 ∧ x.2 ≤ max b.left.2 b.right.2 ∧ f x = true) ∧
    ∀ x : Point, x ∈ nodes_in_box_default b nodes ↔
      x ∈ nodes ∧ b.left.1 ≤ x.1 ∧ x.1 ≤ b.right.1 ∧
        min b.left.2 b.right.2 ≤ x.2 ∧ x.2 ≤ max b.left.2 b.right.2 := by
  have hmin : min b.left.2 b.right.2 = b.left.2 := by omega
  have hmax : max b.left.2 b.right.2 = b.right.2 := by omega
  constructor
  · intro x
    rw [mem_nodes_in_box, hmin, hmax]
  · intro x
    unfold nodes_in_box_default
    rw [mem_nodes_in_box, hmin, hmax]
    simp

/-- C8 (witness): instantiated at the box `{left: (0,0), right: (2,3)}`,
the node list `[(1,2), (3,1)]`, and the predicate `column = 1`. -/
theorem C8_nodes_in_box_characterization_witness :
    (∀ x : Point, x ∈ nodes_in_box ⟨(0, 0), (2, 3)⟩ [(1, 2), (3, 1)] (fun n => n.1 == 1) ↔
      x ∈ [((1 : Int), (2 : Int)), (3, 1)] ∧ (0 : Int) ≤ x.1 ∧ x.1 ≤ 2 ∧
        min (0 : Int) 3 ≤ x.2 ∧ x.2 ≤ max (0 : Int) 3 ∧ (x.1 == 1) = true) ∧
    ∀ x : Point, x ∈ nodes_in_box_default ⟨(0, 0), (2, 3)⟩ [(1, 2), (3, 1)] ↔
      x ∈ [((1 : Int), (2 : Int)), (3, 1)] ∧ (0 : Int) ≤ x.1 ∧ x.1 ≤ 2 ∧
        min (0 : Int) 3 ≤ x.2 ∧ x.2 ≤ max (0 : Int) 3 :=
  C8_nodes_in_box_characterization ⟨(0, 0), (2, 3)⟩ [(1, 2), (3, 1)]
    (fun n => n.1 == 1) (by decide)

/-- The chain list of Scenario A, computed once and shared. -/
lemma scenario_A_paths :
    possible_paths 10 (0, 0) (4, 4) [(2, 2)] = some [[(0, 0), (2, 2), (4, 4)]] := by
  show extract_paths 10 [[(0, 0)]] (construct_restricted_paths (0, 0) (4, 4) [(2, 2)]) = _
  rw [scenario_A_graph]
  rfl

/-! ### Claim theorems: Scenario A and the path selector -/

/-- C6: with start `(0,0)`, end `(4,4)` and candidate waypoints
`[(2,2)]`, `possible_paths` returns exactly the single chain
`[(0,0), (2,2), (4,4)]`, and `pick_best_path` (with stash fruits `[1]`
and node-fruit map `{(2,2) ↦ 1}`) returns that same chain. -/
theorem C6_scenario_A :
    possible_paths 10 (0, 0) (4, 4) [(2, 2)] = some [[(0, 0), (2, 2), (4, 4)]] ∧
    pick_best_path [1] [((2, 2), 1)] [[(0, 0), (2, 2), (4, 4)]] =
      some [(0, 0), (2, 2), (4, 4)] := by
  exact ⟨scenario_A_paths, rfl⟩

/-- C1 (divergence at the failing input): `pick_best_path` computes the
scored copy and sorts it, but discards the sorted array and returns
`paths[0]` unchanged.  With stash fruits `[1, 2]` (type 1 rarest) and
map `{(0,1) ↦ 1, (1,0) ↦ 2}`, the first chain scores `[0, 1]` and the
second `[1, 0]` in rarity order, so the second chain strictly dominates
lexicographically — yet the first chain is returned. -/
theorem C1_first_chain_despite_dominance :
    pick_best_path [1, 2] [((0, 1), 1), ((1, 0), 2)]
        [[(0, 0), (1, 0), (1, 1)], [(0, 0), (0, 1), (1, 1)]] =
      some [(0, 0), (1, 0), (1, 1)] ∧
    rarity_scores [1, 2] [((0, 1), 1), ((1, 0), 2)] [(0, 0), (1, 0), (1, 1)] = [0, 1] ∧
    rarity_scores [1, 2] [((0, 1), 1), ((1, 0), 2)] [(0, 0), (0, 1), (1, 1)] = [1, 0] ∧
    List.Lex (· < ·)
      (rarity_scores [1, 2] [((0, 1), 1), ((1, 0), 2)] [(0, 0), (1, 0), (1, 1)])
      (rarity_scores [1, 2] [((0, 1), 1), ((1, 0), 2)] [(0, 0), (0, 1), (1, 1)]) := by
  refine ⟨rfl, rfl, rfl, ?_⟩
  have h1 : rarity_scores [1, 2] [((0, 1), 1), ((1, 0), 2)] [(0, 0), (1, 0), (1, 1)] = [0, 1] := rfl
  have h2 : rarity_scores [1, 2] [((0, 1), 1), ((1, 0), 2)] [(0, 0), (0, 1), (1, 1)] = [1, 0] := rfl
  rw [h1, h2]
  exact List.Lex.rel (by norm_num)

/-! ### Invariants of the constructed reachability graph -/

lemma srs_snd (e : Point) (S : List Point) :
    (single_refinement_step e S).2 = (refine e S).2 := rfl

lemma srs_fst_mem {e : Point} {S : List Point} {x : Point}
    (h : x ∈ (single_refinement_step e S).1) : x ∈ S := by
  unfold single_refinement_step at h
  exact (List.mem_filter.mp h).1

lemma isKey_singleton (k : Point) (v : List Point) : isKey [(k, v)] k := by
  unfold isKey lookupG
  rw [if_pos rfl]
  simp

lemma pushEnd_length_pos (e : Point) (nodes : List Point) :
    0 < (pushEnd e nodes).length :=
  List.length_pos.mpr (List.ne_nil_of_mem (mem_pushEnd_self e nodes))

/-- The start point is always a key of the constructed graph. -/
lemma construct_isKey_start (start e : Point) (nodes : List Point) :
    isKey (construct_restricted_paths start e nodes) start := by
  rw [construct_unfold]
  dsimp only
  split_ifs with hemp
  · exact isKey_singleton _ _
  · exact isKey_foldl_merge_left (isKey_singleton _ _)

/-- Every candidate node other than the destination is a key of the
constructed graph. -/
lemma construct_isKey_cover (start e x : Point) (nodes : List Point)
    (hx : x ∈ pushEnd e nodes) (hne : x ≠ e) :
    isKey (construct_restricted_paths start e nodes) x := by
  have hkey := refine_isKey (mem_pushEnd_self e nodes) hx hne
  rw [construct_unfold]
  dsimp only
  split_ifs with hemp
  · exfalso
    rw [List.isEmpty_iff, srs_snd] at hemp
    unfold isKey at hkey
    rw [hemp] at hkey
    exact hkey rfl
  · obtain ⟨v, hv⟩ : ∃ v, lookupG (refine e (pushEnd e nodes)).2 x = some v := by
      cases hl : lookupG (refine e (pushEnd e nodes)).2 x with
      | none => exact absurd hl hkey
      | some v => exact ⟨v, rfl⟩
    apply isKey_foldl_merge_of_mem
      (g := construct_restricted_paths x e v)
    · exact List.mem_map.mpr ⟨(x, v), by rw [srs_snd]; exact lookup_mem hv, rfl⟩
    · exact construct_isKey_start x e v

/-- Every point in a successor list of the constructed graph belongs to
the (end-extended) candidate node list. -/
lemma construct_values_mem (e : Point) :
    ∀ (n : Nat) (nodes : List Point), (pushEnd e nodes).length ≤ n →
      ∀ (start : Point) (kv : Point × List Point),
        kv ∈ construct_restricted_paths start e nodes →
        ∀ x ∈ kv.2, x ∈ pushEnd e nodes := by
  intro n
  induction n with
  | zero =>
    intro nodes hlen
    exact absurd hlen (by have := pushEnd_length_pos e nodes; omega)
  | succ n ih =>
    intro nodes hlen start kv hkv x hx
    rw [construct_unfold] at hkv
    dsimp only at hkv
    split_ifs at hkv with hemp
    · rcases List.mem_cons.mp hkv with rfl | h
      · exact hx
      · simp at h
    · rcases mem_foldl_merge hkv with h | ⟨g, hg, hkvg⟩
      · rcases List.mem_cons.mp h with rfl | h
        · exact srs_fst_mem hx
        · simp at h
      · obtain ⟨kv', hkv', rfl⟩ := List.mem_map.mp hg
        rw [srs_snd] at hkv'
        have hre := refine_entries e (pushEnd e nodes) kv' hkv'
        have hend : e ∈ kv'.2 := refEntry_end_mem (mem_pushEnd_self e nodes) hre
        have hlt : kv'.2.length < (pushEnd e nodes).length := refEntry_length hre
        have hx' := ih kv'.2 (by rw [pushEnd_of_mem hend]; omega) kv'.1 kv hkvg x hx
        rw [pushEnd_of_mem hend] at hx'
        rw [hre.2.1] at hx'
        exact nodes_in_box_sublist hx'

/-- When every candidate lies in the start-to-destination box, every
successor stored under a key lies in that key's box toward the
destination. -/
lemma construct_values_box (e : Point) :
    ∀ (n : Nat) (nodes : List Point), (pushEnd e nodes).length ≤ n →
      ∀ (start : Point),
        (∀ y ∈ pushEnd e nodes, in_box (box_coordinates_from_endpoints start e) y) →
        ∀ (kv : Point × List Point), kv ∈ construct_restricted_paths start e nodes →
        ∀ x ∈ kv.2, in_box (box_coordinates_from_endpoints kv.1 e) x := by
  intro n
  induction n with
  | zero =>
    intro nodes hlen
    exact absurd hlen (by have := pushEnd_length_pos e nodes; omega)
  | succ n ih =>
    intro nodes hlen start hbox kv hkv x hx
    rw [construct_unfold] at hkv
    dsimp only at hkv
    split_ifs at hkv with hemp
    · rcases List.mem_cons.mp hkv with rfl | h
      · exact hbox x hx
      · simp at h
    · rcases mem_foldl_merge hkv with h | ⟨g, hg, hkvg⟩
      · rcases List.mem_cons.mp h with rfl | h
        · exact hbox x (srs_fst_mem hx)
        · simp at h
      · obtain ⟨kv', hkv', rfl⟩ := List.mem_map.mp hg
        rw [srs_snd] at hkv'
        have hre := refine_entries e (pushEnd e nodes) kv' hkv'
        have hend : e ∈ kv'.2 := refEntry_end_mem (mem_pushEnd_self e nodes) hre
        have hlt : kv'.2.length < (pushEnd e nodes).length := refEntry_length hre
        refine ih kv'.2 (by rw [pushEnd_of_mem hend]; omega) kv'.1 ?_ kv hkvg x hx
        intro y hy
        rw [pushEnd_of_mem hend, hre.2.1] at hy
        obtain ⟨_, g1, g2, g3, g4, _⟩ := mem_nodes_in_box.mp hy
        exact ⟨g1, g2, g3, g4⟩

/-! ### Invariants of path extraction -/

/-- A chain is terminal for a graph when it is empty or its last point
has no successor entry. -/
def TerminalChain (g : Graph) (p : List Point) : Prop :=
  p = [] ∨ ∃ last, p.getLast? = some last ∧ lookupG g last = none

/-- `extend_path` returns the unextended chain when the last point has
no successors (or the chain is empty). -/
lemma extend_path_eq_single {p : List Point} {g : Graph}
    (h : p.getLast? = none ∨ ∃ last, p.getLast? = some last ∧ lookupG g last = none) :
    extend_path p g = [p] := by
  rcases h with h | ⟨last, h1, h2⟩
  · simp only [extend_path, h]
  · simp only [extend_path, h1, h2]

/-- `extend_path` returns one extension per successor when the last
point has a successor list. -/
lemma extend_path_eq_map {p : List Point} {g : Graph} {last : Point} {succs : List Point}
    (h1 : p.getLast? = some last) (h2 : lookupG g last = some succs) :
    extend_path p g = succs.map fun node => p ++ [node] := by
  simp only [extend_path, h1, h2]

/-- The classification pass preserves a chain invariant `P` that is
stable under appending a successor from the graph: done chains satisfy
`P` and are terminal, queued chains satisfy `P`. -/
lemma extract_classify_spec (g : Graph) (P : List Point → Prop)
    (hstep : ∀ (p : List Point) (last : Point) (succs : List Point) (x : Point),
      P p → p.getLast? = some last → lookupG g last = some succs → x ∈ succs →
      P (p ++ [x])) :
    ∀ (chains done need : List (List Point)),
      extract_classify g chains = some (done, need) →
      (∀ p ∈ chains, P p) →
      (∀ p ∈ done, P p ∧ TerminalChain g p) ∧ (∀ p ∈ need, P p) := by
  intro chains
  induction chains with
  | nil =>
    intro done need h hP
    unfold extract_classify at h
    obtain ⟨h1, h2⟩ := Prod.mk.injEq .. ▸ Option.some.inj h
    subst h1; subst h2
    exact ⟨by simp, by simp⟩
  | cons p ps ih =>
    intro done need h hP
    unfold extract_classify at h
    cases hext : extend_path p g with
    | nil => rw [hext] at h; cases h
    | cons e0 rest =>
      rw [hext] at h
      cases hrec : extract_classify g ps with
      | none => rw [hrec] at h; cases h
      | some dn =>
        obtain ⟨d, ne⟩ := dn
        rw [hrec] at h
        dsimp only at h
        have hPp := hP p (List.mem_cons_self _ _)
        have hPs := fun q hq => hP q (List.mem_cons_of_mem _ hq)
        obtain ⟨hd, hn⟩ := ih d ne hrec hPs
        split_ifs at h with hlen
        · obtain ⟨h1, h2⟩ := Prod.mk.injEq .. ▸ Option.some.inj h
          subst h1; subst h2
          refine ⟨?_, hn⟩
          intro q hq
          rcases List.mem_cons.mp hq with rfl | hq
          · refine ⟨hPp, ?_⟩
            cases hl : q.getLast? with
            | none => exact Or.inl (List.getLast?_eq_none_iff.mp hl)
            | some last =>
              cases hlk : lookupG g last with
              | none => exact Or.inr ⟨last, hl, hlk⟩
              | some succs =>
                exfalso
                rw [extend_path_eq_map hl hlk] at hext
                cases succs with
                | nil => simp at hext
                | cons s0 stl =>
                  rw [List.map_cons] at hext
                  have he0 : e0 = q ++ [s0] := ((List.cons.injEq .. ▸ hext).1).symm
                  have : e0.length = q.length + 1 := by rw [he0]; simp
                  omega
          · exact hd q hq
        · obtain ⟨h1, h2⟩ := Prod.mk.injEq .. ▸ Option.some.inj h
          subst h1; subst h2
          refine ⟨hd, ?_⟩
          intro q hq
          rcases List.mem_append.mp hq with hq | hq
          · cases hl : p.getLast? with
            | none =>
              exfalso
              rw [extend_path_eq_single (Or.inl hl)] at hext
              have he0 : e0 = p := ((List.cons.injEq .. ▸ hext).1).symm
              exact hlen (he0 ▸ rfl)
            | some last =>
              cases hlk : lookupG g last with
              | none =>
                exfalso
                rw [extend_path_eq_single (Or.inr ⟨last, hl, hlk⟩)] at hext
                have he0 : e0 = p := ((List.cons.injEq .. ▸ hext).1).symm
                exact hlen (he0 ▸ rfl)
              | some succs =>
                rw [extend_path_eq_map hl hlk] at hext
                have hq' : q ∈ succs.map fun node => p ++ [node] := hext ▸ hq
                obtain ⟨x, hx, rfl⟩ := List.mem_map.mp hq'
                exact hstep p last succs x hPp hl hlk hx
          · exact hn q hq

/-- The fuel recursion of `extract_paths` preserves the chain invariant
and returns only terminal chains. -/
lemma extract_paths_spec (g : Graph) (P : List Point → Prop)
    (hstep : ∀ (p : List Point) (last : Point) (succs : List Point) (x : Point),
      P p → p.getLast? = some last → lookupG g last = some succs → x ∈ succs →
      P (p ++ [x])) :
    ∀ (fuel : Nat) (chains res : List (List Point)),
      extract_paths fuel chains g = some res → (∀ p ∈ chains, P p) →
      ∀ p ∈ res, P p ∧ TerminalChain g p := by
  intro fuel
  induction fuel with
  | zero =>
    intro chains res h
    simp [extract_paths] at h
  | succ n ih =>
    intro chains res h hP
    unfold extract_paths at h
    cases hcl : extract_classify g chains with
    | none => rw [hcl] at h; cases h
    | some dn =>
      obtain ⟨d, ne⟩ := dn
      rw [hcl] at h
      dsimp only at h
      obtain ⟨hd, hn⟩ := extract_classify_spec g P hstep chains d ne hcl hP
      split_ifs at h with hemp
      · obtain rfl := Option.some.inj h
        exact hd
      · cases hrec : extract_paths n ne g with
        | none => rw [hrec] at h; cases h
        | some rest =>
          rw [hrec] at h
          dsimp only at h
          obtain rfl := Option.some.inj h
          intro p hp
          rcases List.mem_append.mp hp with hp | hp
          · exact hd p hp
          · exact ih ne rest hrec hn p hp

/-! ### Claim theorems: chain endpoints and monotonicity -/

/-- C2: whenever `possible_paths` returns a list of chains, every chain
in it begins with `start` and ends with `end` (which
`construct_restricted_paths` adds to the candidate list when absent). -/
theorem C2_possible_paths_first_last (fuel : Nat) (start e : Point) (nodes : List Point)
    (ps : List (List Point)) (h : possible_paths fuel start e nodes = some ps) :
    ∀ p ∈ ps, p.head? = some start ∧ p.getLast? = some e := by
  have hstep : ∀ (p : List Point) (last : Point) (succs : List Point) (x : Point),
      (p.head? = some start ∧ ∀ y ∈ p, y = start ∨ y ∈ pushEnd e nodes) →
      p.getLast? = some last →
      lookupG (construct_restricted_paths start e nodes) last = some succs → x ∈ succs →
      ((p ++ [x]).head? = some start ∧
        ∀ y ∈ p ++ [x], y = start ∨ y ∈ pushEnd e nodes) := by
    intro p last succs x ⟨hh, hm⟩ hl hlk hx
    have hpne : p ≠ [] := by intro hc; rw [hc] at hh; cases hh
    constructor
    · rw [List.head?_append_of_ne_nil p hpne]; exact hh
    · intro y hy
      rcases List.mem_append.mp hy with hy | hy
      · exact hm y hy
      · have hyx : y = x := by simpa using hy
        subst hyx
        exact Or.inr (construct_values_mem e (pushEnd e nodes).length nodes le_rfl start
          (last, succs) (lookup_mem hlk) y hx)
  have hseed : ∀ p ∈ [[start]],
      p.head? = some start ∧ ∀ y ∈ p, y = start ∨ y ∈ pushEnd e nodes := by
    intro p hp
    have hp' : p = [start] := by simpa using hp
    subst hp'
    exact ⟨rfl, fun y hy => Or.inl (by simpa using hy)⟩
  have hres := extract_paths_spec (construct_restricted_paths start e nodes) _ hstep
    fuel [[start]] ps h hseed
  intro p hp
  obtain ⟨⟨hh, hm⟩, hterm⟩ := hres p hp
  refine ⟨hh, ?_⟩
  have hpne : p ≠ [] := by intro hc; rw [hc] at hh; cases hh
  rcases hterm with rfl | ⟨last, hl, hlk⟩
  · exact absurd rfl hpne
  · have hlmem : last ∈ p := List.mem_of_mem_getLast? hl
    rcases hm last hlmem with rfl | hmem
    · exact absurd hlk (construct_isKey_start last e nodes)
    · by_cases hne : last = e
      · exact hne ▸ hl
      · exact absurd hlk (construct_isKey_cover start e last nodes hmem hne)

/-- C2 (witness): instantiated at Scenario A. -/
theorem C2_possible_paths_first_last_witness :
    ([(0, 0), (2, 2), (4, 4)] : List Point).head? = some (0, 0) ∧
      ([(0, 0), (2, 2), (4, 4)] : List Point).getLast? = some (4, 4) :=
  C2_possible_paths_first_last 10 (0, 0) (4, 4) [(2, 2)] [[(0, 0), (2, 2), (4, 4)]]
    scenario_A_paths [(0, 0), (2, 2), (4, 4)] (List.mem_singleton.mpr rfl)

/-- The unit-step monotone-chain property asserted by the claim for the
chains returned by `possible_paths`: consecutive points differ by
exactly one unit in exactly one coordinate. -/
def unit_step_chain (p : List Point) : Prop :=
  List.Chain' (fun u v => (v.1 - u.1).natAbs + (v.2 - u.2).natAbs = 1) p

instance (p : List Point) : Decidable (unit_step_chain p) :=
  inferInstanceAs (Decidable (List.Chain' _ p))

/-- C3 (counterexample): the single chain returned for Scenario A hops
from `(0,0)` straight to the waypoint `(2,2)` — two units in both
coordinates — so returned chains are not unit-step sequences. -/
theorem C3_chains_not_unit_step :
    possible_paths 10 (0, 0) (4, 4) [(2, 2)] = some [[(0, 0), (2, 2), (4, 4)]] ∧
      ¬ unit_step_chain [(0, 0), (2, 2), (4, 4)] := by
  refine ⟨scenario_A_paths, ?_⟩
  intro h
  unfold unit_step_chain at h
  have h1 := (List.chain'_cons.mp h).1
  exact absurd h1 (by decide)

/-- C3 (amended): when the candidate waypoints lie in the box spanned by
`start` and `end` (the documented precondition), every returned chain is
waypoint-monotone: each point lies in the bounding box of its
predecessor and the destination, so on each axis the chain only ever
moves toward the destination's coordinate and never reverses — but
consecutive waypoints are not unit steps. -/
theorem C3_chains_waypoint_monotone (fuel : Nat) (start e : Point) (nodes : List Point)
    (hbox : ∀ x ∈ nodes, in_box (box_coordinates_from_endpoints start e) x)
    (ps : List (List Point)) (h : possible_paths fuel start e nodes = some ps) :
    ∀ p ∈ ps,
      List.Chain' (fun u v => in_box (box_coordinates_from_endpoints u e) v) p := by
  have hboxS : ∀ y ∈ pushEnd e nodes, in_box (box_coordinates_from_endpoints start e) y := by
    intro y hy
    rw [pushEnd_eq] at hy
    split_ifs at hy with hmem
    · exact hbox y hy
    · rcases List.mem_append.mp hy with hy | hy
      · exact hbox y hy
      · have : y = e := by simpa using hy
        exact this ▸ (in_box_endpoints start e).2
  have hstep : ∀ (p : List Point) (last : Point) (succs : List Point) (x : Point),
      List.Chain' (fun u v => in_box (box_coordinates_from_endpoints u e) v) p →
      p.getLast? = some last →
      lookupG (construct_restricted_paths start e nodes) last = some succs → x ∈ succs →
      List.Chain' (fun u v => in_box (box_coordinates_from_endpoints u e) v) (p ++ [x]) := by
    intro p last succs x hchain hl hlk hx
    apply List.chain'_append.mpr
    refine ⟨hchain, List.chain'_singleton x, ?_⟩
    intro y hy z hz
    have hyl : last = y := by rw [hl] at hy; simpa using hy
    have hzx : x = z := by simpa using hz
    subst hyl; subst hzx
    exact construct_values_box e (pushEnd e nodes).length nodes le_rfl start hboxS
      (last, succs) (lookup_mem hlk) x hx
  have hseed : ∀ p ∈ [[start]],
      List.Chain' (fun u v => in_box (box_coordinates_from_endpoints u e) v) p := by
    intro p hp
    have hp' : p = [start] := by simpa using hp
    subst hp'
    exact List.chain'_singleton start
  intro p hp
  exact (extract_paths_spec (construct_restricted_paths start e nodes) _ hstep
    fuel [[start]] ps h hseed p hp).1

/-- C3 (witness for the amended theorem): instantiated at Scenario A. -/
theorem C3_chains_waypoint_monotone_witness :
    List.Chain' (fun u v => in_box (box_coordinates_from_endpoints u (4, 4)) v)
      [(0, 0), (2, 2), (4, 4)] :=
  C3_chains_waypoint_monotone 10 (0, 0) (4, 4) [(2, 2)] (by decide)
    [[(0, 0), (2, 2), (4, 4)]] scenario_A_paths [(0, 0), (2, 2), (4, 4)]
    (List.mem_singleton.mpr rfl)

/-! ### Claim theorems: termination measure and the frame effect on `nodes` -/

/-- C7: the node list handed to each recursive invocation of
`construct_restricted_paths` (a value of the refined graph computed by
`single_refinement_step`) already contains the destination — so the
callee's guarded push leaves it unchanged — and is strictly shorter
than the caller's end-extended candidate list.  This is exactly the
measure on which the Lean translation of `construct_restricted_paths`
is accepted by well-founded recursion, so the recursion terminates with
depth bounded by the size of the initial node set. -/
theorem C7_recursion_strictly_decreases (e : Point) (nodes : List Point) :
    ∀ kv ∈ (single_refinement_step e (pushEnd e nodes)).2,
      pushEnd e kv.2 = kv.2 ∧ kv.2.length < (pushEnd e nodes).length := by
  intro kv hkv
  rw [srs_snd] at hkv
  have hre := refine_entries e (pushEnd e nodes) kv hkv
  exact ⟨pushEnd_of_mem (refEntry_end_mem (mem_pushEnd_self e nodes) hre),
    refEntry_length hre⟩

/-- C7 (witness): instantiated at Scenario A's single refined-graph
entry. -/
theorem C7_recursion_strictly_decreases_witness :
    pushEnd (4, 4) [(4, 4)] = [(4, 4)] ∧
      ([((4 : Int), (4 : Int))] : List Point).length < (pushEnd (4, 4) [(2, 2)]).length :=
  C7_recursion_strictly_decreases (4, 4) [(2, 2)] ((2, 2), [(4, 4)]) (by decide)

/-- C10: the only mutation `construct_restricted_paths` performs on the
caller's `nodes` array is the single guarded push of `end` at entry
(`src/mybot.js` lines 256-259), embedded as `pushEnd`: when `end` is
already present the array is unchanged, otherwise `end` is appended
after the original elements, whose order is preserved.  Both
`construct_restricted_paths` and `possible_paths` (which forwards its
`nodes` argument) behave as if called on the already-extended array, so
the push at entry is the whole frame effect. -/
theorem C10_push_end_frame (fuel : Nat) (start e : Point) (nodes : List Point) :
    pushEnd e nodes = (if e ∈ nodes then nodes else nodes ++ [e]) ∧
    construct_restricted_paths start e nodes =
      construct_restricted_paths start e (pushEnd e nodes) ∧
    possible_paths fuel start e nodes = possible_paths fuel start e (pushEnd e nodes) := by
  have h2 : construct_restricted_paths start e nodes =
      construct_restricted_paths start e (pushEnd e nodes) := by
    conv_lhs => rw [construct_unfold]
    conv_rhs => rw [construct_unfold]
    rw [pushEnd_of_mem (mem_pushEnd_self e nodes)]
  refine ⟨pushEnd_eq e nodes, h2, ?_⟩
  unfold possible_paths
  rw [h2]

/-! ### The Rare_Fruit_First strategy and its move loop -/

/-- The game's action vocabulary (the host-supplied move constants). -/
inductive Move where
  | NORTH
  | SOUTH
  | EAST
  | WEST
  | TAKE
  | PASS
deriving Repr, DecidableEq

/-- Column-major board of fruit-type ids; `0` is an empty cell. -/
abbrev Board := List (List Int)

/-- Read `board[p.col][p.row]`.  All embedded callers access in-range
cells of well-formed boards; an out-of-range read is modelled as `0`
(an empty cell). -/
def boardAt (board : Board) (p : Point) : Int :=
  if p.1 < 0 ∨ p.2 < 0 then 0
  else (board.getD p.1.toNat []).getD p.2.toNat 0

/-- JS property assignment for the integer- and point-keyed objects of
the strategy state (same semantics as `setKey`). -/
def setEntry {α β : Type} [DecidableEq α] (m : List (α × β)) (k : α) (v : β) :
    List (α × β) :=
  match m with
  | [] => [(k, v)]
  | kv :: rest => if kv.1 = k then (k, v) :: rest else kv :: setEntry rest k v

/-- The fruit stash: the ordered `fruits` array plus the per-type
location lists stored as the stash object's numeric properties. -/
structure FruitStash where
  fruits : List Int
  locs : List (Int × List Point)
deriving Repr, DecidableEq

/-- Read `fruit_stash[fruit]`.  The strategy maintains the invariant
that every type listed in `fruits` has a location entry; a missing
entry reads as the empty list. -/
def stashLocs (stash : FruitStash) (fruit : Int) : List Point :=
  ((stash.locs.find? fun kv => kv.1 == fruit).map (·.2)).getD []

/-- Win counts.  The JS stores the half-integer
`0.5 + 0.5 * (number of locations)`; we store the doubled value
`1 + number of locations`, which is order-isomorphic and avoids
floating point.  Only comparisons of win counts are ever used. -/
abbrev WinCounts := List (Int × Int)

/-- Read `win_counts[fruit]` (in doubled units); fruits in the stash
always have an entry. -/
def winOf (wins : WinCounts) (fruit : Int) : Int :=
  ((wins.find? fun kv => kv.1 == fruit).map (·.2)).getD 0

/-- `common_strategy_methods.sort_fruits` (`src/mybot.js` lines
395-398): sort the fruit list ascending by win count.  JS `Array.sort`
with this consistent numeric comparator is a stable ascending sort. -/
def sort_fruits (wins : WinCounts) (fruits : List Int) : List Int :=
  fruits.insertionSort fun a b => winOf wins a ≤ winOf wins b

/-- The per-episode strategy state initialized by
`create_strategy_instance` (`src/mybot.js` lines 465-476) together with
the planner's committed path. -/
structure StrategyState where
  init : Bool
  fruit_stash : FruitStash
  win_counts : WinCounts
  node_to_fruit_mapping : List (Point × Int)
  planner_path : List Point
deriving Repr, DecidableEq

/-- `common_strategy_methods.update_fruits` (`src/mybot.js` lines
347-362): refilter every fruit's locations against the board, keep the
fruits with locations left, then re-sort. -/
def update_fruits (board : Board) (st : StrategyState) : StrategyState :=
  let pairs := st.fruit_stash.fruits.map fun fruit =>
    (fruit, (stashLocs st.fruit_stash fruit).filter fun loc => boardAt board loc > 0)
  let locs := pairs.foldl (fun acc p => setEntry acc p.1 p.2) st.fruit_stash.locs
  let fruits := (pairs.filter fun p => !p.2.isEmpty).map (·.1)
  { st with fruit_stash := ⟨sort_fruits st.win_counts fruits, locs⟩ }

/-- `common_strategy_methods.find_fruits_and_compute_win_counts`
(`src/mybot.js` lines 371-391): scan the column-major board, recording
locations, win counts and the node-to-fruit mapping, then sort the
fruits by rarity. -/
def find_fruits_and_compute_win_counts (board : Board) (st : StrategyState) :
    StrategyState :=
  let scan := board.enum.foldl
    (fun acc ci =>
      ci.2.enum.foldl
        (fun acc ri =>
          let fruit_type := ri.2
          if fruit_type > 0 then
            let fruit_location : Point := ((ci.1 : Int), (ri.1 : Int))
            let stash := acc.1
            let wins := acc.2.1
            let mapping' := setEntry acc.2.2 fruit_location fruit_type
            match (stash.locs.find? fun kv => kv.1 == fruit_type).map (·.2) with
            | some fruit_locations =>
              (⟨stash.fruits,
                  setEntry stash.locs fruit_type (fruit_locations ++ [fruit_location])⟩,
                setEntry wins fruit_type (winOf wins fruit_type + 1), mapping')
            | none =>
              (⟨stash.fruits ++ [fruit_type],
                  setEntry stash.locs fruit_type [fruit_location]⟩,
                setEntry wins fruit_type 2, mapping')
          else acc)
        acc)
    (st.fruit_stash, st.win_counts, st.node_to_fruit_mapping)
  { st with
    fruit_stash := ⟨sort_fruits scan.2.1 scan.1.fruits, scan.1.locs⟩,
    win_counts := scan.2.1,
    node_to_fruit_mapping := scan.2.2 }

/-- `common_strategy_methods.init_or_update_fruit_locations`
(`src/mybot.js` lines 426-433). -/
def init_or_update_fruit_locations (board : Board) (st : StrategyState) :
    StrategyState :=
  if st.init then update_fruits board st
  else { find_fruits_and_compute_win_counts board st with init := true }

/-- `common_strategy_methods.calculate_move_direction` (`src/mybot.js`
lines 408-419); `none` models the `undefined` the JS returns when both
deltas are zero. -/
def calculate_move_direction (move_location my_location : Point) : Option Move :=
  let x_delta := move_location.1 - my_location.1
  if x_delta ≠ 0 then some (if x_delta > 0 then Move.EAST else Move.WEST)
  else
    let y_delta := move_location.2 - my_location.2
    if y_delta ≠ 0 then some (if y_delta > 0 then Move.SOUTH else Move.NORTH)
    else none

/-- `Planner.next_move` (`src/mybot.js` lines 480-488), returning the
path as left after the possible `shift()` together with the move.
`Except.error` models the `TypeError` the JS raises reading
`this.path[0][0]` when the path is empty (before or after the pop). -/
def planner_next_move (path : List Point) (board : Board)
    (current_x current_y : Int) : List Point × Except String (Option Move) :=
  match path with
  | [] => ([], Except.error "TypeError: cannot read path[0]")
  | p0 :: rest =>
    if p0.1 = current_x ∧ p0.2 = current_y then
      if boardAt board p0 > 0 then (rest, Except.ok (some Move.TAKE))
      else
        match rest with
        | [] => ([], Except.error "TypeError: cannot read path[0]")
        | q :: _ => (rest, Except.ok (calculate_move_direction q (current_x, current_y)))
    else (path, Except.ok (calculate_move_direction p0 (current_x, current_y)))

/-- `Rare_Fruit_First.get_paths` (`src/mybot.js` lines 495-506). -/
def get_paths (fuel : Nat) (st : StrategyState) (start e : Point) :
    Option (List (List Point)) :=
  let box_coords := box_coordinates_from_endpoints start e
  let all_fruit_locations := st.fruit_stash.fruits.foldl
    (fun acc fruit => acc ++ stashLocs st.fruit_stash fruit) []
  let fruits_in_box := nodes_in_box box_coords all_fruit_locations
    fun loc => (loc.1 != start.1) || (loc.2 != start.2)
  possible_paths fuel start e fruits_in_box

/-- `Array.prototype.reduce` called with no initial value: a
`TypeError` on the empty array, else a left fold seeded with the first
element. -/
def js_reduce {α : Type} (f : α → α → α) (l : List α) : Except String α :=
  match l with
  | [] => Except.error "TypeError: Reduce of empty array with no initial value"
  | x :: xs => Except.ok (xs.foldl f x)

/-- `Rare_Fruit_First.make_move` (`src/mybot.js` lines 507-538) with
the strategy state passed explicitly and the host queries supplied as
`board` and `my_position`.  Returns the updated state and the move (or
the JS error the call would raise).  The `fuel` threads through to the
path extraction; running out of fuel models the unbounded JS recursion
failing to return. -/
def make_move (fuel : Nat) (st : StrategyState) (board : Board)
    (my_position : Point) : StrategyState × Except String (Option Move) :=
  let st := init_or_update_fruit_locations board st
  let replan : StrategyState × Except String (Option Move) :=
    match js_reduce
        (fun low_win_fruit fruit =>
          if winOf st.win_counts low_win_fruit ≤ winOf st.win_counts fruit
          then low_win_fruit else fruit)
        st.fruit_stash.fruits with
    | Except.error msg => (st, Except.error msg)
    | Except.ok rare_fruit =>
      match js_reduce
          (fun closest loc =>
            if manhattan_metric my_position loc ≤ manhattan_metric my_position closest
            then loc else closest)
          (stashLocs st.fruit_stash rare_fruit) with
      | Except.error msg => (st, Except.error msg)
      | Except.ok rare_fruit_closest_loc =>
        match get_paths fuel st my_position rare_fruit_closest_loc with
        | none => (st, Except.error "fuel exhausted")
        | some paths =>
          match pick_best_path st.fruit_stash.fruits st.node_to_fruit_mapping paths with
          | none => ({ st with planner_path := [] },
              Except.error "TypeError: cannot read path[0]")
          | some best_path =>
            let r := planner_next_move best_path board my_position.1 my_position.2
            ({ st with planner_path := r.1 }, r.2)
  if st.planner_path.isEmpty then replan
  else
    match st.planner_path.getLast? with
    | none => replan
    | some destination =>
      if boardAt board destination > 0 then
        let r := planner_next_move st.planner_path board my_position.1 my_position.2
        ({ st with planner_path := r.1 }, r.2)
      else replan

/-! ### Claim theorem: the empty-stash move -/

/-- C4 (evaluation at the failing input): with an empty fruit stash and
an empty committed plan, `Rare_Fruit_First.make_move` does not return
`PASS` — the replanning branch calls `reduce` with no initial value on
the empty `fruit_stash.fruits` array, which raises a `TypeError`.  (No
branch of `Rare_Fruit_First.make_move` produces `PASS` at all; only the
legacy greedy strategy at `src/mybot.js` line 90 does.) -/
theorem C4_make_move_empty_stash_raises :
    (make_move 10 ⟨true, ⟨[], []⟩, [], [], []⟩ [[0]] (0, 0)).2 =
      Except.error "TypeError: Reduce of empty array with no initial value" := rfl
